import Mathlib

/-!
Verification of the template-guided grid extraction and cell-text
reconstruction pipeline of the Image2Excel repository.

The Python sources are shallowly embedded: text is modelled as `List Char`
restricted to the ASCII fragment (the regular-expression character classes
of the source are modelled on ASCII), floats carrying cell geometry are
modelled as exact rationals, NumPy images as a pair of dimensions plus a
pixel function, and fallible calls as `Except` values.
-/

set_option maxRecDepth 4000

set_option allowUnsafeReducibility true

attribute [semireducible] Rat.add Rat.mul Rat.sub Rat.neg Rat.div Rat.inv Rat.ofScientific

namespace Image2Excel

/-- Text is modelled as a list of characters. -/
abbrev Text := List Char

/-- Opaque model of a Python exception value carried by a raised error. -/
inductive PyErr
  | generic
  | notFound
  deriving DecidableEq, Repr

instance {ε α : Type} [DecidableEq ε] [DecidableEq α] : DecidableEq (Except ε α) := fun x y =>
  match x, y with
  | .error a, .error b => decidable_of_iff (a = b) (by simp)
  | .error _, .ok _ => isFalse (by simp)
  | .ok _, .error _ => isFalse (by simp)
  | .ok a, .ok b => decidable_of_iff (a = b) (by simp)

/-- The Python whitespace class as matched by the regex class backslash-s
on ASCII input. -/
def pyIsSpace (c : Char) : Bool :=
  c = ' ' || c = '\t' || c = '\n' || c = '\x0d' || c = '\x0b' || c = '\x0c'

/-- The Python word-character class backslash-w on ASCII input: letters,
digits and the underscore. -/
def pyIsWordChar (c : Char) : Bool :=
  c.isAlphanum || c = '_'

/-- Characters kept by `_clean_text` in `image2excel/core/postprocess.py`:
the regex deletes everything outside word characters, whitespace, the
hyphen and the period. -/
def cleanKeep (c : Char) : Bool :=
  pyIsWordChar c || pyIsSpace c || c = '-' || c = '.'

/-- Model of the regex substitution collapsing every whitespace run to a
single space character. -/
def collapseWS : Text → Text
  | [] => []
  | [c] => if pyIsSpace c then [' '] else [c]
  | c :: d :: cs =>
    if pyIsSpace c then
      if pyIsSpace d then collapseWS (d :: cs)
      else ' ' :: collapseWS (d :: cs)
    else c :: collapseWS (d :: cs)

/-- Model of the Python `str.strip` method: remove leading and trailing
whitespace. -/
def pyStrip (t : Text) : Text :=
  ((t.dropWhile pyIsSpace).reverse.dropWhile pyIsSpace).reverse

/-- `_clean_text` from `image2excel/core/postprocess.py`: drop characters
outside the kept class, collapse whitespace runs to single spaces, strip. -/
def cleanText (t : Text) : Text :=
  pyStrip (collapseWS (t.filter cleanKeep))

/-- One right-fold step of the whitespace tokenizer: a space flushes the
current token when nonempty, any other character extends it. -/
def pySplitStep (c : Char) (st : Text × List Text) : Text × List Text :=
  if pyIsSpace c then
    if st.1 = [] then ([], st.2) else ([], st.1 :: st.2)
  else (c :: st.1, st.2)

/-- Model of Python `str.split` with no separator: whitespace-delimited
tokens, empty tokens dropped. -/
def pySplit (t : Text) : List Text :=
  let fin := t.foldr pySplitStep ([], [])
  if fin.1 = [] then fin.2 else fin.1 :: fin.2

/-- Python upper-casing of one character on the ASCII range: the
twenty-six lower-case letters (codes 97 to 122) map down by 32 to their
upper-case partner, everything else is unchanged. -/
def pyToUpperChar (c : Char) : Char :=
  if 97 ≤ c.toNat ∧ c.toNat ≤ 122 then Char.ofNat (c.toNat - 32) else c

/-- Python lower-casing of one character on the ASCII range: the
twenty-six upper-case letters (codes 65 to 90) map up by 32 to their
lower-case partner, everything else is unchanged. -/
def pyToLowerChar (c : Char) : Char :=
  if 65 ≤ c.toNat ∧ c.toNat ≤ 90 then Char.ofNat (c.toNat + 32) else c

/-- Model of Python `str.capitalize`: first character upper-cased, the
rest lower-cased (ASCII). -/
def pyCapitalize : Text → Text
  | [] => []
  | c :: cs => pyToUpperChar c :: cs.map pyToLowerChar

/-- Join a list of texts with a single space separator, as Python
`" ".join`. -/
def joinSpace : List Text → Text
  | [] => []
  | [w] => w
  | w :: ws => w ++ ' ' :: joinSpace ws

/-- Model of Python `str.upper` on ASCII text. -/
def pyUpper (t : Text) : Text :=
  t.map pyToUpperChar

/-- Model of Python `str.lower` on ASCII text. -/
def pyLower (t : Text) : Text :=
  t.map pyToLowerChar

/-- First maximal numeric token of the text, one or more digits optionally
followed by a period and one or more digits.  This is what group 1 of the
weight regex in `_process_weight` matches (the unit suffix of the regex is
optional, so the regex matches at the first digit), and also the first
element `re.findall` of the bare numeric pattern returns. -/
def firstNumToken : Text → Option Text
  | [] => none
  | c :: cs =>
    if c.isDigit then
      let ip := (c :: cs).takeWhile Char.isDigit
      let rest := (c :: cs).dropWhile Char.isDigit
      match rest with
      | '.' :: d :: _ =>
        if d.isDigit then
          some (ip ++ '.' :: (rest.drop 1).takeWhile Char.isDigit)
        else some ip
      | _ => some ip
    else firstNumToken cs

/-- `_process_weight`: return the first numeric token when one exists,
otherwise the text unchanged (both regex attempts of the source locate
the same first numeric token, see `firstNumToken`). -/
def processWeight (t : Text) : Text :=
  match firstNumToken t with
  | some n => n
  | none => t

/-- `_process_code`: upper-case, then delete every character outside the
word class (the regex deletes the complement of backslash-w). -/
def processCode (t : Text) : Text :=
  (pyUpper t).filter pyIsWordChar

/-- `_process_brand`: capitalize each whitespace-delimited token and join
with single spaces. -/
def processBrand (t : Text) : Text :=
  joinSpace ((pySplit t).map pyCapitalize)

/-- `_process_label`: the cleaned text unchanged. -/
def processLabel (t : Text) : Text := t

/-- Column-name classes used by the dispatch in `postprocess_by_column`. -/
def weightCols : List Text := [['p','e','s','o'], ['w','e','i','g','h','t']]

/-- Code-like column names. -/
def codeCols : List Text :=
  [['d','x','o'], ['c','o','d','i','g','o'], ['c','o','d','e']]

/-- Brand-like column names. -/
def brandCols : List Text := [['m','a','r','c','a'], ['b','r','a','n','d']]

/-- Label-like column names. -/
def labelCols : List Text :=
  [['e','t','i','q','u','e','t','a'], ['l','a','b','e','l'], ['t','a','g']]

/-- `postprocess_by_column` from `image2excel/core/postprocess.py`: empty
input short-circuits to empty output, otherwise clean then dispatch on
the lower-cased column name. -/
def postprocess_by_column (columnName : Text) (text : Text) : Text :=
  if text = [] then []
  else
    let cleaned := cleanText text
    if pyLower columnName ∈ weightCols then processWeight cleaned
    else if pyLower columnName ∈ codeCols then processCode cleaned
    else if pyLower columnName ∈ brandCols then processBrand cleaned
    else if pyLower columnName ∈ labelCols then processLabel cleaned
    else cleaned

/-- Python `int(...)` applied to an exact rational: truncation toward
zero. -/
def pyInt (q : ℚ) : ℤ :=
  Int.tdiv q.num q.den

/-- `Cell` from `image2excel/core/template_manager.py`: geometry either
normalized to the unit square or in absolute pixels, per the owning
specification flag. -/
structure Cell where
  row : ℤ
  col : ℤ
  x : ℚ
  y : ℚ
  w : ℚ
  h : ℚ
  name : Option Text
  deriving DecidableEq, Repr

/-- `GridSpec` from `image2excel/core/template_manager.py`. -/
structure GridSpec where
  name : Text
  width : ℤ
  height : ℤ
  cells : List Cell
  normalized : Bool
  deriving DecidableEq, Repr

/-- One stored cell record, the `cell.__dict__` payload written by
`TemplateManager.save`. -/
structure StoredCell where
  row : ℤ
  col : ℤ
  x : ℚ
  y : ℚ
  w : ℚ
  h : ℚ
  name : Option Text
  deriving DecidableEq, Repr

/-- One stored template record, the JSON payload written by
`TemplateManager.save`; `normalized` is optional because legacy records
may lack the key, which `load` defaults to false. -/
structure StoredTemplate where
  name : Text
  width : ℤ
  height : ℤ
  normalized : Option Bool
  cells : List StoredCell
  deriving DecidableEq, Repr

/-- The backing storage of a `TemplateManager`, keyed by template name
(the file `name + ".json"` inside the templates directory). -/
def TemplateStore := Text → Option StoredTemplate

/-- The payload `TemplateManager.save` writes for one cell. -/
def toStoredCell (c : Cell) : StoredCell :=
  ⟨c.row, c.col, c.x, c.y, c.w, c.h, c.name⟩

/-- The payload `TemplateManager.save` writes for one template. -/
def toStored (s : GridSpec) : StoredTemplate :=
  ⟨s.name, s.width, s.height, some s.normalized, s.cells.map toStoredCell⟩

/-- `Cell(**c)` applied to a stored cell record. -/
def fromStoredCell (c : StoredCell) : Cell :=
  ⟨c.row, c.col, c.x, c.y, c.w, c.h, c.name⟩

/-- The `GridSpec` that `TemplateManager.load` rebuilds from a stored
record: `normalized` defaults to false when absent. -/
def fromStored (d : StoredTemplate) : GridSpec :=
  ⟨d.name, d.width, d.height, (d.cells.map fromStoredCell), d.normalized.getD false⟩

/-- `TemplateManager.save`: write the payload under the template name and
return the storage location (the name keying the written file). -/
def saveTemplate (st : TemplateStore) (spec : GridSpec) : TemplateStore × Text :=
  (fun n => if n = spec.name then some (toStored spec) else st n, spec.name)

/-- The reserved template name, `"default_template"`. -/
def defaultTemplateName : Text :=
  ['d','e','f','a','u','l','t','_','t','e','m','p','l','a','t','e']

/-- The built-in default template synthesized by
`TemplateManager._create_default_template`: four named columns by three
rows, normalized coordinates. -/
def defaultTemplate : GridSpec :=
  let etiqueta : Option Text := some ['E','t','i','q','u','e','t','a']
  let dxo : Option Text := some ['D','X','O']
  let marca : Option Text := some ['M','a','r','c','a']
  let peso : Option Text := some ['P','e','s','o']
  { name := defaultTemplateName
    width := 1280
    height := 720
    cells :=
      [⟨1, 1, 0.1, 0.1, 0.2, 0.15, etiqueta⟩,
       ⟨1, 2, 0.35, 0.1, 0.2, 0.15, dxo⟩,
       ⟨1, 3, 0.6, 0.1, 0.2, 0.15, marca⟩,
       ⟨1, 4, 0.85, 0.1, 0.1, 0.15, peso⟩,
       ⟨2, 1, 0.1, 0.3, 0.2, 0.15, etiqueta⟩,
       ⟨2, 2, 0.35, 0.3, 0.2, 0.15, dxo⟩,
       ⟨2, 3, 0.6, 0.3, 0.2, 0.15, marca⟩,
       ⟨2, 4, 0.85, 0.3, 0.1, 0.15, peso⟩,
       ⟨3, 1, 0.1, 0.5, 0.2, 0.15, etiqueta⟩,
       ⟨3, 2, 0.35, 0.5, 0.2, 0.15, dxo⟩,
       ⟨3, 3, 0.6, 0.5, 0.2, 0.15, marca⟩,
       ⟨3, 4, 0.85, 0.5, 0.1, 0.15, peso⟩]
    normalized := true }

/-- `TemplateManager.load`: read the stored record when present; for the
reserved default name synthesize and persist the built-in template; fail
with a not-found error otherwise.  The returned store reflects the
persistence side effect of the default path. -/
def loadTemplate (st : TemplateStore) (name : Text) :
    Except PyErr GridSpec × TemplateStore :=
  match st name with
  | some d => (.ok (fromStored d), st)
  | none =>
    if name = defaultTemplateName then
      (.ok defaultTemplate, (saveTemplate st defaultTemplate).1)
    else (.error .notFound, st)

/-- A NumPy raster image restricted to its first two axes: row count,
column count and a pixel function (the color channels play no role in
cropping and are elided). -/
structure Img where
  rows : ℕ
  cols : ℕ
  px : ℕ → ℕ → ℤ

/-- NumPy slice-bound normalization on an axis of length `n`: negative
indices count from the end, then the bound is clamped to `[0, n]`. -/
def npClamp (n : ℕ) (i : ℤ) : ℕ :=
  if i < 0 then ((n : ℤ) + i).toNat else min i.toNat n

/-- `img[y1:y2, x1:x2]` on the first two axes of a NumPy array. -/
def subImage (img : Img) (y1 y2 x1 x2 : ℤ) : Img :=
  { rows := npClamp img.rows y2 - npClamp img.rows y1
    cols := npClamp img.cols x2 - npClamp img.cols x1
    px := fun i j => img.px (npClamp img.rows y1 + i) (npClamp img.cols x1 + j) }

/-- `array.size` restricted to the two modelled axes: zero exactly when
the crop is empty. -/
def imgSize (img : Img) : ℕ := img.rows * img.cols

/-- Pixel bounds of one cell before padding, as computed in
`GridExtractor.crop_cells`: denormalize against the image size when the
specification is normalized, otherwise truncate the absolute pixel
coordinates. -/
structure Bounds where
  x1 : ℤ
  y1 : ℤ
  x2 : ℤ
  y2 : ℤ
  deriving DecidableEq, Repr

/-- The raw integer bounds of a cell in `GridExtractor.crop_cells`. -/
def rawBounds (normalized : Bool) (cell : Cell) (imgW imgH : ℕ) : Bounds :=
  if normalized then
    ⟨pyInt (cell.x * imgW), pyInt (cell.y * imgH),
     pyInt ((cell.x + cell.w) * imgW), pyInt ((cell.y + cell.h) * imgH)⟩
  else
    ⟨pyInt cell.x, pyInt cell.y, pyInt (cell.x + cell.w), pyInt (cell.y + cell.h)⟩

/-- Padding and clamping of cell bounds in `GridExtractor.crop_cells`:
expand by `pad` in all four directions, clamp the mins at zero and the
maxes at the image size. -/
def padBounds (pad : ℤ) (imgW imgH : ℕ) (b : Bounds) : Bounds :=
  ⟨max 0 (b.x1 - pad), max 0 (b.y1 - pad),
   min imgW (b.x2 + pad), min imgH (b.y2 + pad)⟩

/-- The bounds `GridExtractor.crop_cells` computes for one cell. -/
def cropCellsBounds (spec : GridSpec) (pad : ℤ) (img : Img) (cell : Cell) : Bounds :=
  padBounds pad img.cols img.rows (rawBounds spec.normalized cell img.cols img.rows)

/-- The bounds `GridExtractor.extract_single_cell` computes, spelled out
separately because the source duplicates the computation. -/
def singleCellBounds (spec : GridSpec) (pad : ℤ) (img : Img) (cell : Cell) : Bounds :=
  padBounds pad img.cols img.rows (rawBounds spec.normalized cell img.cols img.rows)

/-- `GridExtractor.crop_cells`: crop every declared cell, keeping only
crops of positive size. -/
def crop_cells (spec : GridSpec) (pad : ℤ) (img : Img) : List (Cell × Img) :=
  spec.cells.filterMap fun cell =>
    let b := cropCellsBounds spec pad img cell
    let crop := subImage img b.y1 b.y2 b.x1 b.x2
    if 0 < imgSize crop then some (cell, crop) else none

/-- `GridExtractor.extract_single_cell`: the same crop for one cell,
returned unconditionally. -/
def extract_single_cell (spec : GridSpec) (pad : ℤ) (img : Img) (cell : Cell) : Img :=
  let b := singleCellBounds spec pad img cell
  subImage img b.y1 b.y2 b.x1 b.x2

/-- A detection polygon returned by the OCR capability. -/
abbrev Poly := List (ℤ × ℤ)

/-- One OCR detection: polygon with a text and confidence pair. -/
abbrev OcrDet := Poly × (Text × ℚ)

/-- `OCREngine.read_cell` from `image2excel/core/ocr_engine.py`.  The
argument is the outcome of everything inside the try block: cell
preprocessing, lazy engine construction and the OCR invocation, which
either raises or returns a list of pages of detections.  A raised error
is swallowed and becomes the empty string; otherwise the stripped
non-blank fragments are joined with single spaces. -/
def read_cell (r : Except PyErr (List (List OcrDet))) : Text :=
  match r with
  | .error _ => []
  | .ok result =>
    let parts := (result.flatMap id).filterMap fun d =>
      if d.2.1 ≠ [] ∧ pyStrip d.2.1 ≠ [] then some (pyStrip d.2.1) else none
    if parts ≠ [] then joinSpace parts else []

/-- `OcrWord` from `image2excel/ports.py`. -/
structure OcrWord where
  text : Text
  confidence : ℚ
  x : ℤ
  y : ℤ
  w : ℤ
  h : ℤ
  deriving DecidableEq, Repr

/-- `TableRow` from `image2excel/ports.py`. -/
structure TableRow where
  cells : List Text
  deriving DecidableEq, Repr

/-- `Table` from `image2excel/ports.py`. -/
structure Table where
  rows : List TableRow
  deriving DecidableEq, Repr

/-- The global sort of `BasicParserAdapter.words_to_table`: stable sort by
the key pair of y then x, modelled by insertion sort, which is stable
like the Python sort. -/
def sortYX (items : List OcrWord) : List OcrWord :=
  items.insertionSort fun a b => a.y < b.y ∨ (a.y = b.y ∧ a.x ≤ b.x)

/-- The within-row sort of `BasicParserAdapter.words_to_table`: stable
sort by x. -/
def sortX (ws : List OcrWord) : List OcrWord :=
  ws.insertionSort fun a b => a.x ≤ b.x

/-- The overflow handling of `BasicParserAdapter.words_to_table`: when a
positive maximum column count is configured and exceeded, the trailing
cells are joined into the last kept cell. -/
def truncCells (maxCols : Option ℤ) (cells : List Text) : List Text :=
  match maxCols with
  | none => cells
  | some m =>
    if 0 < m ∧ m < (cells.length : ℤ) then
      cells.take (m - 1).toNat ++ [joinSpace (cells.drop (m - 1).toNat)]
    else cells

/-- `BasicParserAdapter.words_to_table` from `image2excel/adapters.py`:
filter blank words, sort by y then x, cluster consecutively whenever the
next word sits within the vertical threshold of the previous one, sort
each cluster by x, one cell per word, with overflow concatenation. -/
def words_to_table (words : List OcrWord) (maxCols : Option ℤ) : Table :=
  let items := words.filter fun w => pyStrip w.text ≠ []
  if items.isEmpty then ⟨[]⟩ else
  let sorted := sortYX items
  let avgH := max 1 (Int.tdiv ((sorted.map (·.h)).sum) sorted.length)
  let yThreshold := max 4 (Int.fdiv avgH 2)
  match sorted with
  | [] => ⟨[]⟩
  | first :: rest =>
    let step := fun (st : List (List OcrWord) × List OcrWord) (w : OcrWord) =>
      if |w.y - (st.2.getLastD first).y| ≤ yThreshold then (st.1, st.2 ++ [w])
      else (st.1 ++ [sortX st.2], [w])
    let fin := rest.foldl step ([], [first])
    let rowsW := fin.1 ++ [sortX fin.2]
    ⟨rowsW.map fun line =>
      let cells := truncCells maxCols (line.map (·.text))
      ⟨if cells = [] then [[]] else cells⟩⟩

/-- Helper for the claim-level description of line clustering: extend the
current cluster while the next word stays within the vertical threshold
of the last word of the cluster, otherwise start a new cluster.  The
default in `getLastD` is never consulted because the cluster is nonempty. -/
def chainInto (thr : ℤ) (cur : List OcrWord) : List OcrWord → List (List OcrWord)
  | [] => [cur]
  | w :: ws =>
    if |w.y - (cur.getLastD w).y| ≤ thr then chainInto thr (cur ++ [w]) ws
    else cur :: chainInto thr [w] ws

/-- Claim-level clustering of a sorted word list into rows by vertical
proximity. -/
def chainClusters (thr : ℤ) : List OcrWord → List (List OcrWord)
  | [] => []
  | w :: ws => chainInto thr [w] ws

/-- The line-clustering strategy exactly as the claim describes it: group
the detected words into rows by vertical proximity with threshold
`max 4 (half of the average detected word height)`, sort each row by
horizontal position, one word per cell, with the excess trailing words of
an over-long row concatenated into the last cell. -/
def claimLineClusteredTable (words : List OcrWord) (maxCols : Option ℤ) : Table :=
  let items := words.filter fun w => pyStrip w.text ≠ []
  if items.isEmpty then ⟨[]⟩ else
  let sorted := sortYX items
  let avgH := Int.tdiv ((sorted.map (·.h)).sum) sorted.length
  let thr := max 4 (Int.fdiv avgH 2)
  ⟨(chainClusters thr sorted).map fun cl =>
    ⟨truncCells maxCols ((sortX cl).map (·.text))⟩⟩

/-- Ascending sort of separator coordinates, Python `sorted`. -/
def sortInts (l : List ℤ) : List ℤ :=
  l.insertionSort fun a b => a ≤ b

/-- `extract_text_from_grid` from `services/assist_grid.py`: close the
marked separator lines with the image borders, then produce one matrix
entry per grid cell; an unreadable image raises, an empty crop or a
failing per-cell OCR call degrades to the empty string.  `cellOcr r c`
stands for the OCR service invocation on the padded crop of cell
`(r, c)`. -/
def extract_text_from_grid (img : Option Img) (vlines hlines : List ℤ)
    (cellOcr : ℕ → ℕ → Except PyErr (List OcrDet)) : Except PyErr (List (List Text)) :=
  match img with
  | none => .error .generic
  | some img =>
    let xcoords := 0 :: sortInts vlines ++ [(img.cols : ℤ)]
    let ycoords := 0 :: sortInts hlines ++ [(img.rows : ℤ)]
    let nrows := ycoords.length - 1
    let ncols := xcoords.length - 1
    .ok ((List.range nrows).map fun r => (List.range ncols).map fun c =>
      let x1 := xcoords.getD c 0
      let y1 := ycoords.getD r 0
      let x2 := xcoords.getD (c + 1) 0
      let y2 := ycoords.getD (r + 1) 0
      let cellImg := subImage img y1 y2 x1 x2
      if imgSize cellImg = 0 then []
      else
        match cellOcr r c with
        | .error _ => []
        | .ok dets =>
          pyStrip (joinSpace (dets.filterMap fun d =>
            if pyStrip d.2.1 ≠ [] then some d.2.1 else none)))

/-- A grid of raw strings as returned by the first two extraction
strategies of `RunImageToExcel.__call__`. -/
abbrev RawGrid := List (List Text)

/-- The truthiness test `grid and any(any(c for c in r) for r in grid)` of
`RunImageToExcel.__call__`: some row holds some non-empty string. -/
def nonTrivial (g : RawGrid) : Bool :=
  g.any fun r => r.any fun c => c ≠ []

/-- `Table(rows=[TableRow(cells=r) for r in grid])`. -/
def tableOfGrid (g : RawGrid) : Table :=
  ⟨g.map fun r => ⟨r⟩⟩

/-- `RunImageToExcel.__call__` from `image2excel/use_cases.py`.

Modelled from the spec: the bodies of the first two strategies are
`services.template_runtime.ocr_with_template` and
`services.pp_table.PPTableExtractor.image_to_grid`, neither of which is
present in the repository; per the specification both are opaque
extraction strategies that either raise or return a grid of strings,
so their outcomes enter as the `Except` arguments `tmplGrid` and
`ppGrid`.  `templatePath` is the truthiness of `cfg.template_path`,
`exportFn` the injected exporter port, `ocrWords` the outcome of the
injected OCR port, and the injected parser port is the repository
adapter `words_to_table`.  The first component of the result is the
returned path or the propagated error; the second lists the strategies
whose bodies were entered, in order. -/
def runCall (templatePath : Bool) (tmplGrid : Except PyErr RawGrid)
    (ppGrid : Except PyErr RawGrid) (ocrWords : Except PyErr (List OcrWord))
    (exportFn : Table → Except PyErr Text) (maxCols : Option ℤ) :
    Except PyErr Text × List ℕ :=
  let s1 : Option Text :=
    if templatePath then
      match tmplGrid with
      | .error _ => none
      | .ok g =>
        if nonTrivial g then
          match exportFn (tableOfGrid g) with
          | .ok p => some p
          | .error _ => none
        else none
    else none
  let t1 : List ℕ := if templatePath then [1] else []
  match s1 with
  | some p => (.ok p, t1)
  | none =>
    let s2 : Option Text :=
      match ppGrid with
      | .error _ => none
      | .ok g =>
        if nonTrivial g then
          match exportFn (tableOfGrid g) with
          | .ok p => some p
          | .error _ => none
        else none
    match s2 with
    | some p => (.ok p, t1 ++ [2])
    | none =>
      match ocrWords with
      | .error e => (.error e, t1 ++ [2, 3])
      | .ok ws => (exportFn (words_to_table ws maxCols), t1 ++ [2, 3])

/-- Three concrete OCR words on two visual lines, used as test data: two
words share the first line, the third sits on a distant line. -/
def wordA : OcrWord := ⟨['a'], 1, 0, 0, 5, 10⟩

/-- Second word of the first line. -/
def wordB : OcrWord := ⟨['b'], 1, 10, 0, 5, 10⟩

/-- Single word of the distant second line. -/
def wordC : OcrWord := ⟨['c'], 1, 0, 100, 5, 10⟩

/-- A cell lying entirely outside a hundred-pixel-square image, in
absolute pixel coordinates. -/
def outsideCell : Cell := ⟨1, 1, 200, 200, 10, 10, none⟩

/-- A one-cell absolute-coordinate specification owning `outsideCell`. -/
def outsideSpec : GridSpec := ⟨['t'], 100, 100, [outsideCell], false⟩

/-- A hundred-pixel-square test image. -/
def smallImg : Img := ⟨100, 100, fun _ _ => 0⟩

/-- A well-placed normalized cell, the first cell of the built-in default
template. -/
def insideCell : Cell := ⟨1, 1, 0.1, 0.1, 0.2, 0.15, none⟩

/-- A one-cell normalized specification owning `insideCell` at the
canonical default-template resolution. -/
def insideSpec : GridSpec := ⟨['t'], 1280, 720, [insideCell], true⟩

/-- A test image at the canonical default-template resolution. -/
def canonImg : Img := ⟨720, 1280, fun _ _ => 0⟩

theorem uint32_le_iff (a b : UInt32) : (a ≤ b) ↔ a.toNat ≤ b.toNat := by
  rw [UInt32.le_def, BitVec.le_def]; rfl

theorem char_le_iff (a b : Char) : (a ≤ b) ↔ a.toNat ≤ b.toNat := by
  rw [Char.le_def, uint32_le_iff]; rfl

theorem char_eq_iff (a b : Char) : (a = b) ↔ a.toNat = b.toNat := by
  rw [Char.ext_iff]
  constructor
  · intro h; exact congrArg UInt32.toNat h
  · intro h; exact UInt32.eq_of_toBitVec_eq (BitVec.toNat_injective h)

theorem char_ofNat_toNat {n : ℕ} (h : n < 55296) : (Char.ofNat n).toNat = n := by
  have hv : n.isValidChar := Or.inl h
  simp [Char.ofNat, hv, Char.toNat, Char.ofNatAux, UInt32.toNat, UInt32.ofNat',
    BitVec.toNat_ofNatLt]

theorem toNat_pyToUpperChar (c : Char) :
    (pyToUpperChar c).toNat =
      if 97 ≤ c.toNat ∧ c.toNat ≤ 122 then c.toNat - 32 else c.toNat := by
  unfold pyToUpperChar
  split
  · next h => exact char_ofNat_toNat (by omega)
  · rfl

theorem toNat_pyToLowerChar (c : Char) :
    (pyToLowerChar c).toNat =
      if 65 ≤ c.toNat ∧ c.toNat ≤ 90 then c.toNat + 32 else c.toNat := by
  unfold pyToLowerChar
  split
  · next h => exact char_ofNat_toNat (by omega)
  · rfl

theorem pyIsSpace_iff (c : Char) :
    pyIsSpace c = true ↔
      c.toNat = 32 ∨ c.toNat = 9 ∨ c.toNat = 10 ∨ c.toNat = 13 ∨
        c.toNat = 11 ∨ c.toNat = 12 := by
  simp only [pyIsSpace, Bool.or_eq_true, decide_eq_true_eq, char_eq_iff,
    show (' ' : Char).toNat = 32 from rfl, show ('\t' : Char).toNat = 9 from rfl,
    show ('\n' : Char).toNat = 10 from rfl, show ('\x0d' : Char).toNat = 13 from rfl,
    show ('\x0b' : Char).toNat = 11 from rfl, show ('\x0c' : Char).toNat = 12 from rfl]
  omega

theorem pyIsWordChar_iff (c : Char) :
    pyIsWordChar c = true ↔
      (48 ≤ c.toNat ∧ c.toNat ≤ 57) ∨ (65 ≤ c.toNat ∧ c.toNat ≤ 90) ∨
        (97 ≤ c.toNat ∧ c.toNat ≤ 122) ∨ c.toNat = 95 := by
  simp only [pyIsWordChar, Char.isAlphanum, Char.isAlpha, Char.isUpper, Char.isLower,
    Char.isDigit, Bool.or_eq_true, Bool.and_eq_true, decide_eq_true_eq, char_eq_iff,
    char_le_iff, ge_iff_le, uint32_le_iff, Char.toNat,
    show ((65 : UInt32)).toNat = 65 from rfl, show ((90 : UInt32)).toNat = 90 from rfl,
    show ((97 : UInt32)).toNat = 97 from rfl, show ((122 : UInt32)).toNat = 122 from rfl,
    show ((48 : UInt32)).toNat = 48 from rfl, show ((57 : UInt32)).toNat = 57 from rfl,
    show ('A' : Char).toNat = 65 from rfl, show ('Z' : Char).toNat = 90 from rfl,
    show ('a' : Char).toNat = 97 from rfl, show ('z' : Char).toNat = 122 from rfl,
    show ('0' : Char).toNat = 48 from rfl, show ('9' : Char).toNat = 57 from rfl,
    show ('_' : Char).toNat = 95 from rfl, show UInt32.toNat ('_' : Char).val = 95 from rfl]
  omega

theorem cleanKeep_iff (c : Char) :
    cleanKeep c = true ↔
      pyIsWordChar c = true ∨ pyIsSpace c = true ∨ c.toNat = 45 ∨ c.toNat = 46 := by
  simp only [cleanKeep, Bool.or_eq_true, decide_eq_true_eq, char_eq_iff,
    show ('-' : Char).toNat = 45 from rfl, show ('.' : Char).toNat = 46 from rfl]
  tauto

theorem pyIsWordChar_pyToUpperChar (c : Char) :
    pyIsWordChar (pyToUpperChar c) = pyIsWordChar c := by
  rw [Bool.eq_iff_iff, pyIsWordChar_iff, pyIsWordChar_iff, toNat_pyToUpperChar]
  split <;> omega

theorem pyIsWordChar_pyToLowerChar (c : Char) :
    pyIsWordChar (pyToLowerChar c) = pyIsWordChar c := by
  rw [Bool.eq_iff_iff, pyIsWordChar_iff, pyIsWordChar_iff, toNat_pyToLowerChar]
  split <;> omega

theorem pyIsSpace_pyToUpperChar (c : Char) :
    pyIsSpace (pyToUpperChar c) = pyIsSpace c := by
  rw [Bool.eq_iff_iff, pyIsSpace_iff, pyIsSpace_iff, toNat_pyToUpperChar]
  split <;> omega

theorem pyIsSpace_pyToLowerChar (c : Char) :
    pyIsSpace (pyToLowerChar c) = pyIsSpace c := by
  rw [Bool.eq_iff_iff, pyIsSpace_iff, pyIsSpace_iff, toNat_pyToLowerChar]
  split <;> omega

theorem cleanKeep_pyToUpperChar (c : Char) :
    cleanKeep (pyToUpperChar c) = cleanKeep c := by
  rw [Bool.eq_iff_iff, cleanKeep_iff, cleanKeep_iff, pyIsWordChar_pyToUpperChar,
    pyIsSpace_pyToUpperChar, pyIsWordChar_iff, pyIsSpace_iff, toNat_pyToUpperChar]
  split_ifs <;> omega

theorem cleanKeep_pyToLowerChar (c : Char) :
    cleanKeep (pyToLowerChar c) = cleanKeep c := by
  rw [Bool.eq_iff_iff, cleanKeep_iff, cleanKeep_iff, pyIsWordChar_pyToLowerChar,
    pyIsSpace_pyToLowerChar, pyIsWordChar_iff, pyIsSpace_iff, toNat_pyToLowerChar]
  split_ifs <;> omega

theorem pyToUpperChar_idem (c : Char) :
    pyToUpperChar (pyToUpperChar c) = pyToUpperChar c := by
  rw [char_eq_iff, toNat_pyToUpperChar, toNat_pyToUpperChar]
  split_ifs <;> omega

theorem pyToLowerChar_idem (c : Char) :
    pyToLowerChar (pyToLowerChar c) = pyToLowerChar c := by
  rw [char_eq_iff, toNat_pyToLowerChar, toNat_pyToLowerChar]
  split_ifs <;> omega

/-- C4: the cell recognizer returns the empty string rather than
propagating when anything inside its guarded block raises, including the
OCR capability being unavailable or throwing, so a failing cell never
escapes as an exception. -/
theorem read_cell_swallows_failures (e : PyErr) : read_cell (Except.error e) = [] := rfl

theorem fromStoredCell_toStoredCell (c : Cell) : fromStoredCell (toStoredCell c) = c := by
  cases c; rfl

theorem fromStored_toStored (spec : GridSpec) : fromStored (toStored spec) = spec := by
  cases spec with
  | mk n w h cells nz =>
    unfold fromStored toStored
    simp only [Option.getD_some, List.map_map]
    refine congrArg (fun l => GridSpec.mk n w h l nz) ?_
    rw [show fromStoredCell ∘ toStoredCell = id from funext fun c => fromStoredCell_toStoredCell c]
    exact List.map_id cells

/-- C5: saving any GridSpec and loading it back by the saved location
name yields an identical GridSpec, including the normalized flag; in
particular the built-in twelve-cell three-row four-column normalized
template round-trips from an empty store. -/
theorem template_save_load_roundtrip :
    (∀ (st : TemplateStore) (spec : GridSpec),
      (loadTemplate (saveTemplate st spec).1 (saveTemplate st spec).2).1 = Except.ok spec) ∧
    (loadTemplate (saveTemplate (fun _ => none) defaultTemplate).1 defaultTemplateName).1 =
      Except.ok defaultTemplate ∧
    defaultTemplate.cells.length = 12 ∧
    defaultTemplate.normalized = true := by
  refine ⟨?_, by decide, by decide, by decide⟩
  intro st spec
  show (loadTemplate _ spec.name).1 = _
  unfold loadTemplate
  show (match (if spec.name = spec.name then some (toStored spec) else st spec.name) with
    | some d => (Except.ok (fromStored d), _)
    | none => _).1 = _
  rw [if_pos rfl]
  show Except.ok (fromStored (toStored spec)) = _
  rw [fromStored_toStored]

/-- C2 as stated is false: for a cell lying beyond the image the clamped
horizontal bounds come out reversed, with the lower bound even exceeding
the image width, at cell (x, y, w, h) = (200, 200, 10, 10) in absolute
pixels, a hundred-pixel-square image and the default pad of six. -/
theorem crop_bounds_counterexample :
    ¬ (0 ≤ (cropCellsBounds outsideSpec 6 smallImg outsideCell).x1 ∧
       (cropCellsBounds outsideSpec 6 smallImg outsideCell).x1 ≤
         (cropCellsBounds outsideSpec 6 smallImg outsideCell).x2 ∧
       (cropCellsBounds outsideSpec 6 smallImg outsideCell).x2 ≤ (smallImg.cols : ℤ) ∧
       0 ≤ (cropCellsBounds outsideSpec 6 smallImg outsideCell).y1 ∧
       (cropCellsBounds outsideSpec 6 smallImg outsideCell).y1 ≤
         (cropCellsBounds outsideSpec 6 smallImg outsideCell).y2 ∧
       (cropCellsBounds outsideSpec 6 smallImg outsideCell).y2 ≤ (smallImg.rows : ℤ)) := by
  decide

/-- C2 (amended): for a nonnegative pad and any cell whose raw
denormalized integer bounds are ordered and lie within the image, the
padded and clamped crop bounds satisfy `0 ≤ x1 ≤ x2 ≤ image_width` and
`0 ≤ y1 ≤ y2 ≤ image_height`. -/
theorem crop_bounds_clamped (spec : GridSpec) (pad : ℤ) (img : Img) (cell : Cell)
    (hpad : 0 ≤ pad)
    (hx0 : 0 ≤ (rawBounds spec.normalized cell img.cols img.rows).x1)
    (hx : (rawBounds spec.normalized cell img.cols img.rows).x1 ≤
      (rawBounds spec.normalized cell img.cols img.rows).x2)
    (hxW : (rawBounds spec.normalized cell img.cols img.rows).x2 ≤ (img.cols : ℤ))
    (hy0 : 0 ≤ (rawBounds spec.normalized cell img.cols img.rows).y1)
    (hy : (rawBounds spec.normalized cell img.cols img.rows).y1 ≤
      (rawBounds spec.normalized cell img.cols img.rows).y2)
    (hyH : (rawBounds spec.normalized cell img.cols img.rows).y2 ≤ (img.rows : ℤ)) :
    0 ≤ (cropCellsBounds spec pad img cell).x1 ∧
    (cropCellsBounds spec pad img cell).x1 ≤ (cropCellsBounds spec pad img cell).x2 ∧
    (cropCellsBounds spec pad img cell).x2 ≤ (img.cols : ℤ) ∧
    0 ≤ (cropCellsBounds spec pad img cell).y1 ∧
    (cropCellsBounds spec pad img cell).y1 ≤ (cropCellsBounds spec pad img cell).y2 ∧
    (cropCellsBounds spec pad img cell).y2 ≤ (img.rows : ℤ) := by
  unfold cropCellsBounds padBounds
  dsimp only
  omega

theorem crop_bounds_clamped_witness :
    0 ≤ (cropCellsBounds insideSpec 6 canonImg insideCell).x1 ∧
    (cropCellsBounds insideSpec 6 canonImg insideCell).x1 ≤
      (cropCellsBounds insideSpec 6 canonImg insideCell).x2 ∧
    (cropCellsBounds insideSpec 6 canonImg insideCell).x2 ≤ (canonImg.cols : ℤ) ∧
    0 ≤ (cropCellsBounds insideSpec 6 canonImg insideCell).y1 ∧
    (cropCellsBounds insideSpec 6 canonImg insideCell).y1 ≤
      (cropCellsBounds insideSpec 6 canonImg insideCell).y2 ∧
    (cropCellsBounds insideSpec 6 canonImg insideCell).y2 ≤ (canonImg.rows : ℤ) :=
  crop_bounds_clamped insideSpec 6 canonImg insideCell (by decide) (by decide) (by decide)
    (by decide) (by decide) (by decide) (by decide)

/-- C10: `extract_single_cell` computes exactly the bounds `crop_cells`
computes for the same cell, and its crop appears paired with the cell in
the `crop_cells` output precisely when it has positive size, while
`extract_single_cell` itself returns the crop, empty or not,
unconditionally. -/
theorem extract_single_cell_refines (spec : GridSpec) (pad : ℤ) (img : Img) (cell : Cell)
    (hc : cell ∈ spec.cells) :
    singleCellBounds spec pad img cell = cropCellsBounds spec pad img cell ∧
    ((cell, extract_single_cell spec pad img cell) ∈ crop_cells spec pad img ↔
      0 < imgSize (extract_single_cell spec pad img cell)) := by
  refine ⟨rfl, ?_⟩
  unfold crop_cells
  constructor
  · intro hmem
    rcases List.mem_filterMap.mp hmem with ⟨c, _, heq⟩
    dsimp only at heq
    split at heq
    · next hpos =>
      rcases Option.some.inj heq with h2
      have hcells : c = cell := congrArg Prod.fst h2
      have hcrop := congrArg Prod.snd h2
      dsimp only at hcrop
      rw [← hcrop]
      subst hcells
      exact hpos
    · exact absurd heq (by simp)
  · intro hpos
    apply List.mem_filterMap.mpr
    refine ⟨cell, hc, ?_⟩
    dsimp only
    have hpos2 : 0 < imgSize (subImage img (cropCellsBounds spec pad img cell).y1
        (cropCellsBounds spec pad img cell).y2 (cropCellsBounds spec pad img cell).x1
        (cropCellsBounds spec pad img cell).x2) := hpos
    rw [if_pos hpos2]
    rfl

theorem extract_single_cell_refines_witness :
    insideCell ∈ insideSpec.cells ∧
    (singleCellBounds insideSpec 6 canonImg insideCell =
      cropCellsBounds insideSpec 6 canonImg insideCell ∧
    ((insideCell, extract_single_cell insideSpec 6 canonImg insideCell) ∈
        crop_cells insideSpec 6 canonImg ↔
      0 < imgSize (extract_single_cell insideSpec 6 canonImg insideCell))) :=
  ⟨by decide, extract_single_cell_refines insideSpec 6 canonImg insideCell (by decide)⟩

/-- C3 as stated is false: the line-clustering parser delivers one cell
per detected word, so two words on the first line and one on the second
produce rows of different lengths. -/
theorem grid_rectangularity_counterexample :
    ¬ (∀ r ∈ (words_to_table [wordA, wordB, wordC] none).rows,
        ∀ s ∈ (words_to_table [wordA, wordB, wordC] none).rows,
          r.cells.length = s.cells.length) := by
  decide

theorem sortInts_length (l : List ℤ) : (sortInts l).length = l.length :=
  (List.perm_insertionSort _ l).length_eq

/-- C3 (amended): the assisted-grid extraction delivers a rectangular
matrix, one more row than marked horizontal lines and every row one cell
longer than the marked vertical lines; the line-clustering parser of the
fallback chain delivers one cell per word and its grids need not be
rectangular. -/
theorem assist_grid_rectangular (img : Option Img) (vlines hlines : List ℤ)
    (cellOcr : ℕ → ℕ → Except PyErr (List OcrDet)) (grid : List (List Text))
    (h : extract_text_from_grid img vlines hlines cellOcr = .ok grid) :
    grid.length = hlines.length + 1 ∧ ∀ row ∈ grid, row.length = vlines.length + 1 := by
  cases img with
  | none => exact absurd h (by simp [extract_text_from_grid])
  | some im =>
    unfold extract_text_from_grid at h
    have hg := (Except.ok.inj h).symm
    subst hg
    constructor
    · simp [List.length_range, sortInts_length]
    · intro row hrow
      rcases List.mem_map.mp hrow with ⟨r, _, hr⟩
      rw [← hr]
      simp [List.length_range, sortInts_length]

theorem assist_grid_rectangular_witness :
    ([[[], []]] : List (List Text)).length = List.length ([] : List ℤ) + 1 ∧
    ∀ row ∈ ([[[], []]] : List (List Text)), row.length = List.length ([50] : List ℤ) + 1 :=
  assist_grid_rectangular (some smallImg) [50] [] (fun _ _ => .ok []) [[[], []]] (by decide)

/-- C1 as stated is false: with a template whose strategy yields an
only-empty grid, a structure-detection strategy also yielding an
only-empty grid, and a word OCR returning nothing, the run still calls
the exporter on the empty parsed table and returns its output path; no
dedicated extraction error is raised. -/
theorem extraction_failed_counterexample :
    nonTrivial [[[]]] = false ∧
    words_to_table [] none = ⟨[]⟩ ∧
    runCall true (.ok [[[]]]) (.ok [[[]]]) (.ok []) (fun _ => .ok ['o']) none =
      (.ok ['o'], [1, 2, 3]) := by
  decide

/-- C1 (amended): whenever the first two strategies each fail or yield
only-empty grids, the run always proceeds to the plain-OCR strategy and
exports its parsed table unconditionally, empty or not; the outcome is
exactly that of the final pipeline, and the only errors surfaced are a
failing final OCR call or a failing final export. -/
theorem fallback_exhaustion_exports (templatePath : Bool)
    (tmplGrid ppGrid : Except PyErr RawGrid) (ocrWords : Except PyErr (List OcrWord))
    (exportFn : Table → Except PyErr Text) (maxCols : Option ℤ)
    (h1 : ∀ g, tmplGrid = .ok g → nonTrivial g = false)
    (h2 : ∀ g, ppGrid = .ok g → nonTrivial g = false) :
    runCall templatePath tmplGrid ppGrid ocrWords exportFn maxCols =
      (match ocrWords with
        | .error e => Except.error e
        | .ok ws => exportFn (words_to_table ws maxCols),
       (if templatePath then [1] else []) ++ [2, 3]) := by
  unfold runCall
  cases tmplGrid with
  | error e =>
    cases ppGrid with
    | error e2 => cases templatePath <;> cases ocrWords <;> rfl
    | ok g2 =>
      have hg2 := h2 g2 rfl
      cases templatePath <;> cases ocrWords <;> simp [hg2]
  | ok g1 =>
    have hg1 := h1 g1 rfl
    cases ppGrid with
    | error e2 => cases templatePath <;> cases ocrWords <;> simp [hg1]
    | ok g2 =>
      have hg2 := h2 g2 rfl
      cases templatePath <;> cases ocrWords <;> simp [hg1, hg2]

theorem fallback_exhaustion_exports_witness :
    runCall true (.ok [[[]]]) (.ok [[[]]]) (.ok []) (fun _ => .ok ['o']) none =
      (.ok ['o'], [1, 2, 3]) :=
  (fallback_exhaustion_exports true (.ok [[[]]]) (.ok [[[]]]) (.ok [])
      (fun _ => .ok ['o']) none
      (fun g h => by rw [← Except.ok.inj h]; rfl)
      (fun g h => by rw [← Except.ok.inj h]; rfl)).trans (by decide)

/-- C7 as stated is false: when the template strategy yields a
non-trivial grid but exporting that grid raises, the chain swallows the
failure and still invokes strategies 2 and 3, here returning the export
of the structure-detection grid instead. -/
theorem fallback_monotonicity_counterexample :
    nonTrivial [[['a']]] = true ∧
    runCall true (.ok [[['a']]]) (.ok [[['b']]]) (.ok [])
        (fun t => if t = tableOfGrid [[['a']]] then .error .generic else .ok ['o']) none =
      (.ok ['o'], [1, 2]) := by
  decide

/-- C7 (amended): whenever the template strategy yields a non-trivial
grid and exporting that grid succeeds, the run returns that export
result and never enters strategy 2 or strategy 3. -/
theorem template_success_short_circuits (ppGrid : Except PyErr RawGrid)
    (ocrWords : Except PyErr (List OcrWord)) (exportFn : Table → Except PyErr Text)
    (maxCols : Option ℤ) (g : RawGrid) (p : Text)
    (hg : nonTrivial g = true) (hexp : exportFn (tableOfGrid g) = .ok p) :
    runCall true (.ok g) ppGrid ocrWords exportFn maxCols = (.ok p, [1]) := by
  unfold runCall
  simp [hg, hexp]

theorem template_success_short_circuits_witness :
    runCall true (.ok [[['a']]]) (.ok []) (.ok []) (fun _ => .ok ['o']) none =
      (.ok ['o'], [1]) :=
  template_success_short_circuits (.ok []) (.ok []) (fun _ => .ok ['o']) none
    [[['a']]] ['o'] (by decide) rfl

theorem filter_dropWhile_of_excl {p q : Char → Bool} (h : ∀ c, q c = true → p c = false)
    (l : Text) : (l.dropWhile q).filter p = l.filter p := by
  conv_rhs => rw [← List.takeWhile_append_dropWhile q l]
  rw [List.filter_append]
  have he : (l.takeWhile q).filter p = [] := by
    rw [List.filter_eq_nil_iff]
    intro a ha
    simp [h a (List.mem_takeWhile_imp ha)]
  rw [he, List.nil_append]

theorem filter_pyStrip_of_excl {p : Char → Bool}
    (h : ∀ c, pyIsSpace c = true → p c = false) (l : Text) :
    (pyStrip l).filter p = l.filter p := by
  unfold pyStrip
  rw [List.filter_reverse, filter_dropWhile_of_excl h, List.filter_reverse,
    filter_dropWhile_of_excl h, List.reverse_reverse]

theorem filter_collapseWS_of_excl {p : Char → Bool}
    (h : ∀ c, pyIsSpace c = true → p c = false) (l : Text) :
    (collapseWS l).filter p = l.filter p := by
  have hsp : p ' ' = false := h ' ' (by decide)
  induction l with
  | nil => rfl
  | cons c cs ih =>
    cases cs with
    | nil =>
      show (collapseWS [c]).filter p = _
      unfold collapseWS
      by_cases hc : pyIsSpace c = true
      · rw [if_pos hc]
        simp [List.filter_cons, hsp, h c hc]
      · rw [if_neg hc]
    | cons d ds =>
      show (collapseWS (c :: d :: ds)).filter p = _
      unfold collapseWS
      by_cases hc : pyIsSpace c = true
      · rw [if_pos hc]
        by_cases hd : pyIsSpace d = true
        · rw [if_pos hd, ih]
          simp [List.filter_cons, h c hc]
        · rw [if_neg hd]
          have hsstep : List.filter p (' ' :: collapseWS (d :: ds)) =
              List.filter p (collapseWS (d :: ds)) := by
            simp [List.filter_cons, hsp]
          rw [hsstep, ih]
          simp [List.filter_cons, h c hc]
      · rw [if_neg hc]
        rw [List.filter_cons, List.filter_cons, ih]

theorem space_not_wordChar : ∀ c, pyIsSpace c = true → pyIsWordChar c = false := by
  intro c hc
  cases hb : pyIsWordChar c
  · rfl
  · exfalso
    have h1 := (pyIsSpace_iff c).mp hc
    have h2 := (pyIsWordChar_iff c).mp hb
    omega

theorem filter_word_cleanText (t : Text) :
    (cleanText t).filter pyIsWordChar = t.filter pyIsWordChar := by
  unfold cleanText
  rw [filter_pyStrip_of_excl space_not_wordChar,
    filter_collapseWS_of_excl space_not_wordChar, List.filter_filter]
  apply List.filter_congr
  intro a _
  cases hw : pyIsWordChar a
  · rfl
  · have hk : cleanKeep a = true := by unfold cleanKeep; rw [hw]; rfl
    rw [hk]
    rfl

/-- C8 as stated is false: the code cleanup keeps the underscore, which
is not alphanumeric, so the result is not always the upper-cased
alphanumeric-only residue. -/
theorem code_postprocess_counterexample :
    postprocess_by_column (['D','X','O']) (['a','_','b']) = ['A','_','B'] ∧
    postprocess_by_column (['D','X','O']) (['a','_','b']) ≠
      pyUpper ((['a','_','b'] : Text).filter Char.isAlphanum) ∧
    ¬ (∀ c ∈ postprocess_by_column (['D','X','O']) (['a','_','b']), c.isAlphanum = true) := by
  decide

/-- The code dispatch of `postprocess_by_column` in closed form: a
word-class filter followed by upper-casing. -/
theorem code_postprocess_eq (col text : Text) (h : pyLower col ∈ codeCols) :
    postprocess_by_column col text = pyUpper (text.filter pyIsWordChar) := by
  simp only [codeCols, List.mem_cons, List.not_mem_nil, or_false] at h
  unfold postprocess_by_column
  by_cases ht : text = []
  · rw [if_pos ht, ht]
    rfl
  · rw [if_neg ht]
    have hnw : ¬ pyLower col ∈ weightCols := by
      rcases h with h | h | h <;> rw [h] <;> decide
    have hc : pyLower col ∈ codeCols := by
      rcases h with h | h | h <;> rw [h] <;> decide
    rw [if_neg hnw, if_pos hc]
    show processCode (cleanText text) = _
    unfold processCode pyUpper
    rw [List.filter_map,
      show (pyIsWordChar ∘ pyToUpperChar) = pyIsWordChar from
        funext fun c => pyIsWordChar_pyToUpperChar c,
      filter_word_cleanText]

/-- C8 (amended): for every input text under a code-like column name the
postprocessor deletes every character outside the Python word class
(letters, digits and the underscore survive) and upper-cases the
remainder; in particular raw text `ab-12 x` under column `DXO` yields
`AB12X`. -/
theorem code_postprocess (col text : Text) (h : pyLower col ∈ codeCols) :
    postprocess_by_column col text = pyUpper (text.filter pyIsWordChar) :=
  code_postprocess_eq col text h

theorem code_postprocess_witness :
    pyLower (['D','X','O']) ∈ codeCols ∧
    postprocess_by_column (['D','X','O']) (['a','b','-','1','2',' ','x']) =
      pyUpper ((['a','b','-','1','2',' ','x'] : Text).filter pyIsWordChar) ∧
    pyUpper ((['a','b','-','1','2',' ','x'] : Text).filter pyIsWordChar) =
      ['A','B','1','2','X'] :=
  ⟨by decide,
   code_postprocess (['D','X','O']) (['a','b','-','1','2',' ','x']) (by decide),
   by decide⟩

theorem pySplitStep_space_nil (a : Char) (st : Text × List Text)
    (ha : pyIsSpace a = true) (h : st.1 = []) : pySplitStep a st = ([], st.2) := by
  unfold pySplitStep
  rw [if_pos ha, if_pos h]

theorem pySplitStep_space_cons (a : Char) (st : Text × List Text)
    (ha : pyIsSpace a = true) (h : st.1 ≠ []) : pySplitStep a st = ([], st.1 :: st.2) := by
  unfold pySplitStep
  rw [if_pos ha, if_neg h]

theorem pySplitStep_nonspace (a : Char) (st : Text × List Text)
    (ha : pyIsSpace a = false) : pySplitStep a st = (a :: st.1, st.2) := by
  unfold pySplitStep
  rw [if_neg (by simp [ha])]

theorem pySplit_eq (t : Text) :
    pySplit t = if (t.foldr pySplitStep ([], [])).1 = []
      then (t.foldr pySplitStep ([], [])).2
      else (t.foldr pySplitStep ([], [])).1 :: (t.foldr pySplitStep ([], [])).2 := rfl

theorem pySplit_foldr_spec (t : Text) :
    (∀ c ∈ (t.foldr pySplitStep ([], [])).1, pyIsSpace c = false ∧ c ∈ t) ∧
    ∀ w ∈ (t.foldr pySplitStep ([], [])).2, w ≠ [] ∧
      ∀ c ∈ w, pyIsSpace c = false ∧ c ∈ t := by
  induction t with
  | nil => exact ⟨by simp, by simp⟩
  | cons a t ih =>
    obtain ⟨ih1, ih2⟩ := ih
    rw [List.foldr_cons]
    by_cases ha : pyIsSpace a = true
    · by_cases hcur : (t.foldr pySplitStep ([], [])).1 = []
      · rw [pySplitStep_space_nil a _ ha hcur]
        refine ⟨by simp, ?_⟩
        intro w hw
        obtain ⟨hw1, hw2⟩ := ih2 w hw
        exact ⟨hw1, fun c hc => ⟨(hw2 c hc).1, List.mem_cons_of_mem a (hw2 c hc).2⟩⟩
      · rw [pySplitStep_space_cons a _ ha hcur]
        refine ⟨by simp, ?_⟩
        intro w hw
        rcases List.mem_cons.mp hw with hw | hw
        · subst hw
          exact ⟨hcur, fun c hc => ⟨(ih1 c hc).1, List.mem_cons_of_mem a (ih1 c hc).2⟩⟩
        · obtain ⟨hw1, hw2⟩ := ih2 w hw
          exact ⟨hw1, fun c hc => ⟨(hw2 c hc).1, List.mem_cons_of_mem a (hw2 c hc).2⟩⟩
    · rw [pySplitStep_nonspace a _ (Bool.not_eq_true _ ▸ ha)]
      constructor
      · intro c hc
        rcases List.mem_cons.mp hc with hc | hc
        · rw [hc]
          exact ⟨Bool.not_eq_true _ ▸ ha, List.mem_cons_self a t⟩
        · exact ⟨(ih1 c hc).1, List.mem_cons_of_mem a (ih1 c hc).2⟩
      · intro w hw
        obtain ⟨hw1, hw2⟩ := ih2 w hw
        exact ⟨hw1, fun c hc => ⟨(hw2 c hc).1, List.mem_cons_of_mem a (hw2 c hc).2⟩⟩

theorem pySplit_words (t : Text) :
    ∀ w ∈ pySplit t, w ≠ [] ∧ ∀ c ∈ w, pyIsSpace c = false ∧ c ∈ t := by
  obtain ⟨h1, h2⟩ := pySplit_foldr_spec t
  intro w hw
  rw [pySplit_eq] at hw
  by_cases hcur : (t.foldr pySplitStep ([], [])).1 = []
  · rw [if_pos hcur] at hw
    exact h2 w hw
  · rw [if_neg hcur] at hw
    rcases List.mem_cons.mp hw with hw | hw
    · subst hw
      exact ⟨hcur, h1⟩
    · exact h2 w hw

theorem foldr_pySplitStep_word (w : Text) (hw : ∀ c ∈ w, pyIsSpace c = false)
    (st : Text × List Text) : w.foldr pySplitStep st = (w ++ st.1, st.2) := by
  induction w with
  | nil => rfl
  | cons c w ih =>
    rw [List.foldr_cons, ih fun d hd => hw d (List.mem_cons_of_mem c hd),
      pySplitStep_nonspace c _ (hw c (List.mem_cons_self c w))]
    rfl

theorem foldr_pySplitStep_joinSpace (w : Text) (ws : List Text)
    (h : ∀ u ∈ w :: ws, u ≠ [] ∧ ∀ c ∈ u, pyIsSpace c = false) :
    (joinSpace (w :: ws)).foldr pySplitStep ([], []) = (w, ws) := by
  induction ws generalizing w with
  | nil =>
    show (joinSpace [w]).foldr pySplitStep ([], []) = _
    unfold joinSpace
    rw [foldr_pySplitStep_word w (h w (List.mem_cons_self w [])).2]
    simp
  | cons w2 ws2 ih =>
    show (w ++ ' ' :: joinSpace (w2 :: ws2)).foldr pySplitStep ([], []) = _
    rw [List.foldr_append, List.foldr_cons,
      ih w2 fun u hu => h u (List.mem_cons_of_mem w hu),
      pySplitStep_space_cons ' ' _ (by decide)
        (h w2 (List.mem_cons_of_mem w (List.mem_cons_self w2 ws2))).1,
      foldr_pySplitStep_word w (h w (List.mem_cons_self w _)).2]
    simp

theorem pySplit_joinSpace (ws : List Text)
    (h : ∀ u ∈ ws, u ≠ [] ∧ ∀ c ∈ u, pyIsSpace c = false) :
    pySplit (joinSpace ws) = ws := by
  cases ws with
  | nil => rfl
  | cons w ws' =>
    rw [pySplit_eq, foldr_pySplitStep_joinSpace w ws' h]
    exact if_neg (h w (List.mem_cons_self w ws')).1

theorem mem_joinSpace {c : Char} {ws : List Text} (hc : c ∈ joinSpace ws) :
    c = ' ' ∨ ∃ w ∈ ws, c ∈ w := by
  induction ws with
  | nil => exact absurd hc (List.not_mem_nil c)
  | cons w ws ih =>
    cases ws with
    | nil => exact Or.inr ⟨w, List.mem_cons_self w [], hc⟩
    | cons w2 ws2 =>
      rw [show joinSpace (w :: w2 :: ws2) = w ++ ' ' :: joinSpace (w2 :: ws2) from rfl] at hc
      rcases List.mem_append.mp hc with hc | hc
      · exact Or.inr ⟨w, List.mem_cons_self w _, hc⟩
      · rcases List.mem_cons.mp hc with hc | hc
        · exact Or.inl hc
        · rcases ih hc with hc | ⟨u, hu, hcu⟩
          · exact Or.inl hc
          · exact Or.inr ⟨u, List.mem_cons_of_mem w hu, hcu⟩

theorem collapseWS_cons_nonspace (c : Char) (hc : pyIsSpace c = false) (t : Text) :
    collapseWS (c :: t) = c :: collapseWS t := by
  cases t with
  | nil =>
    show collapseWS [c] = _
    simp only [collapseWS]
    rw [if_neg (by simp [hc])]
  | cons d ds =>
    show collapseWS (c :: d :: ds) = _
    simp only [collapseWS]
    rw [if_neg (by simp [hc])]

theorem collapseWS_word (w t : Text) (hw : ∀ c ∈ w, pyIsSpace c = false) :
    collapseWS (w ++ t) = w ++ collapseWS t := by
  induction w with
  | nil => rfl
  | cons c w ih =>
    rw [List.cons_append,
      collapseWS_cons_nonspace c (hw c (List.mem_cons_self c w)),
      ih fun d hd => hw d (List.mem_cons_of_mem c hd), List.cons_append]

theorem collapseWS_space_cons (d : Char) (ds : Text) (hd : pyIsSpace d = false) :
    collapseWS (' ' :: d :: ds) = ' ' :: collapseWS (d :: ds) := by
  simp only [collapseWS]
  rw [if_pos (by decide), if_neg (by simp [hd])]

theorem joinSpace_cons_head (w : Text) (ws : List Text) (c1 : Char) (w1 : Text)
    (hw : w = c1 :: w1) :
    ∃ rest, joinSpace (w :: ws) = c1 :: rest ∧
      (ws = [] → rest = w1) ∧ (ws ≠ [] → rest = w1 ++ ' ' :: joinSpace ws) := by
  cases ws with
  | nil =>
    exact ⟨w1, by rw [hw]; rfl, fun _ => rfl, fun h => absurd rfl h⟩
  | cons w2 ws2 =>
    refine ⟨w1 ++ ' ' :: joinSpace (w2 :: ws2), ?_,
      fun h => absurd h (List.cons_ne_nil w2 ws2), fun _ => rfl⟩
    show w ++ ' ' :: joinSpace (w2 :: ws2) = _
    rw [hw]
    rfl

theorem collapseWS_joinSpace (ws : List Text)
    (h : ∀ u ∈ ws, u ≠ [] ∧ ∀ c ∈ u, pyIsSpace c = false) :
    collapseWS (joinSpace ws) = joinSpace ws := by
  cases ws with
  | nil => rfl
  | cons w ws' =>
    induction ws' generalizing w with
    | nil =>
      show collapseWS (joinSpace [w]) = joinSpace [w]
      unfold joinSpace
      have hw := collapseWS_word w [] (fun c hc => (h w (List.mem_cons_self w _)).2 c hc)
      simpa [show collapseWS ([] : Text) = [] from rfl] using hw
    | cons w2 ws2 ih =>
      show collapseWS (w ++ ' ' :: joinSpace (w2 :: ws2)) = _
      rw [collapseWS_word w _ (fun c hc => (h w (List.mem_cons_self w _)).2 c hc)]
      obtain ⟨hw2ne, hw2sp⟩ := h w2 (List.mem_cons_of_mem w (List.mem_cons_self w2 ws2))
      obtain ⟨c2, w2', hw2⟩ : ∃ c2 w2', w2 = c2 :: w2' := by
        cases w2 with
        | nil => exact absurd rfl hw2ne
        | cons c2 w2' => exact ⟨c2, w2', rfl⟩
      obtain ⟨rest, hjoin, -, -⟩ := joinSpace_cons_head w2 ws2 c2 w2' hw2
      rw [hjoin, collapseWS_space_cons c2 rest (hw2sp c2 (hw2 ▸ List.mem_cons_self c2 w2')),
        ← hjoin, ih w2 (fun u hu => h u (List.mem_cons_of_mem w hu))]
      rfl

theorem joinSpace_reverse_head (ws : List Text)
    (h : ∀ u ∈ ws, u ≠ [] ∧ ∀ c ∈ u, pyIsSpace c = false) (hne : ws ≠ []) :
    ∃ c t', (joinSpace ws).reverse = c :: t' ∧ pyIsSpace c = false := by
  induction ws with
  | nil => exact absurd rfl hne
  | cons w ws' ih =>
    cases ws' with
    | nil =>
      obtain ⟨hwne, hwsp⟩ := h w (List.mem_cons_self w [])
      show ∃ c t', w.reverse = c :: t' ∧ _
      cases hr : w.reverse with
      | nil => exact absurd (by simpa using congrArg List.reverse hr) hwne
      | cons c t' =>
        refine ⟨c, t', rfl, hwsp c ?_⟩
        have : c ∈ w.reverse := hr ▸ List.mem_cons_self c t'
        exact List.mem_reverse.mp this
    | cons w2 ws2 =>
      obtain ⟨c, t', hct, hcsp⟩ :=
        ih (fun u hu => h u (List.mem_cons_of_mem w hu)) (by simp)
      refine ⟨c, t' ++ ' ' :: w.reverse, ?_, hcsp⟩
      show (w ++ ' ' :: joinSpace (w2 :: ws2)).reverse = _
      rw [List.reverse_append, List.reverse_cons, hct]
      simp

theorem pyStrip_joinSpace (ws : List Text)
    (h : ∀ u ∈ ws, u ≠ [] ∧ ∀ c ∈ u, pyIsSpace c = false) :
    pyStrip (joinSpace ws) = joinSpace ws := by
  cases ws with
  | nil => rfl
  | cons w ws' =>
    unfold pyStrip
    obtain ⟨hwne, hwsp⟩ := h w (List.mem_cons_self w ws')
    obtain ⟨c1, w1, hw1⟩ : ∃ c1 w1, w = c1 :: w1 := by
      cases w with
      | nil => exact absurd rfl hwne
      | cons c1 w1 => exact ⟨c1, w1, rfl⟩
    have hhead : ∃ d rest, joinSpace (w :: ws') = d :: rest ∧ pyIsSpace d = false := by
      cases ws' with
      | nil =>
        exact ⟨c1, w1, by rw [hw1]; rfl, hwsp c1 (hw1 ▸ List.mem_cons_self c1 w1)⟩
      | cons w2 ws2 =>
        refine ⟨c1, w1 ++ ' ' :: joinSpace (w2 :: ws2), ?_,
          hwsp c1 (hw1 ▸ List.mem_cons_self c1 w1)⟩
        show w ++ ' ' :: joinSpace (w2 :: ws2) = _
        rw [hw1]
        rfl
    obtain ⟨d, rest, hd, hdsp⟩ := hhead
    rw [hd, List.dropWhile_cons, if_neg (by simp [hdsp]), ← hd]
    obtain ⟨c, t', hct, hcsp⟩ := joinSpace_reverse_head (w :: ws') h (by simp)
    rw [hct, List.dropWhile_cons, if_neg (by simp [hcsp]), ← hct, List.reverse_reverse]

theorem mem_collapseWS {c : Char} {t : Text} (hc : c ∈ collapseWS t) :
    c = ' ' ∨ c ∈ t := by
  induction t with
  | nil => exact absurd hc (List.not_mem_nil c)
  | cons a t ih =>
    cases t with
    | nil =>
      revert hc
      show c ∈ collapseWS [a] → _
      unfold collapseWS
      by_cases ha : pyIsSpace a = true
      · rw [if_pos ha]
        intro hc
        exact Or.inl (by simpa using hc)
      · rw [if_neg ha]
        intro hc
        exact Or.inr hc
    | cons d ds =>
      revert hc
      show c ∈ collapseWS (a :: d :: ds) → _
      unfold collapseWS
      by_cases ha : pyIsSpace a = true
      · rw [if_pos ha]
        by_cases hd : pyIsSpace d = true
        · rw [if_pos hd]
          intro hc
          rcases ih hc with hc | hc
          · exact Or.inl hc
          · exact Or.inr (List.mem_cons_of_mem a hc)
        · rw [if_neg hd]
          intro hc
          rcases List.mem_cons.mp hc with hc | hc
          · exact Or.inl hc
          · rcases ih hc with hc | hc
            · exact Or.inl hc
            · exact Or.inr (List.mem_cons_of_mem a hc)
      · rw [if_neg ha]
        intro hc
        rcases List.mem_cons.mp hc with hc | hc
        · exact Or.inr (hc ▸ List.mem_cons_self a _)
        · rcases ih hc with hc | hc
          · exact Or.inl hc
          · exact Or.inr (List.mem_cons_of_mem a hc)

theorem mem_pyStrip {c : Char} {t : Text} (hc : c ∈ pyStrip t) : c ∈ t := by
  unfold pyStrip at hc
  rw [List.mem_reverse] at hc
  have h1 := (List.dropWhile_sublist (l := (t.dropWhile pyIsSpace).reverse)
    (p := pyIsSpace)).subset hc
  rw [List.mem_reverse] at h1
  exact (List.dropWhile_sublist (l := t) (p := pyIsSpace)).subset h1

theorem cleanKeep_of_mem_cleanText {c : Char} {t : Text} (hc : c ∈ cleanText t) :
    cleanKeep c = true := by
  unfold cleanText at hc
  have h1 := mem_pyStrip hc
  rcases mem_collapseWS h1 with h2 | h2
  · subst h2
    decide
  · exact (List.mem_filter.mp h2).2

theorem pyCapitalize_good (w : Text) (hsp : ∀ c ∈ w, pyIsSpace c = false)
    (hk : ∀ c ∈ w, cleanKeep c = true) (hne : w ≠ []) :
    pyCapitalize w ≠ [] ∧
      ∀ c ∈ pyCapitalize w, pyIsSpace c = false ∧ cleanKeep c = true := by
  cases w with
  | nil => exact absurd rfl hne
  | cons a w' =>
    refine ⟨by simp [pyCapitalize], ?_⟩
    intro c hc
    rcases List.mem_cons.mp hc with hc | hc
    · subst hc
      rw [pyIsSpace_pyToUpperChar, cleanKeep_pyToUpperChar]
      exact ⟨hsp a (List.mem_cons_self a w'), hk a (List.mem_cons_self a w')⟩
    · rcases List.mem_map.mp hc with ⟨d, hd, hdc⟩
      subst hdc
      rw [pyIsSpace_pyToLowerChar, cleanKeep_pyToLowerChar]
      exact ⟨hsp d (List.mem_cons_of_mem a hd), hk d (List.mem_cons_of_mem a hd)⟩

theorem pyCapitalize_idem (w : Text) : pyCapitalize (pyCapitalize w) = pyCapitalize w := by
  cases w with
  | nil => rfl
  | cons c cs =>
    show pyToUpperChar (pyToUpperChar c) :: (cs.map pyToLowerChar).map pyToLowerChar = _
    rw [pyToUpperChar_idem, List.map_map]
    refine congrArg _ (List.map_congr_left fun d _ => ?_)
    exact pyToLowerChar_idem d

theorem cleanText_joinSpace (ws : List Text)
    (h : ∀ u ∈ ws, u ≠ [] ∧ ∀ c ∈ u, pyIsSpace c = false ∧ cleanKeep c = true) :
    cleanText (joinSpace ws) = joinSpace ws := by
  unfold cleanText
  have hsp : ∀ u ∈ ws, u ≠ [] ∧ ∀ c ∈ u, pyIsSpace c = false :=
    fun u hu => ⟨(h u hu).1, fun c hc => ((h u hu).2 c hc).1⟩
  have hfix : (joinSpace ws).filter cleanKeep = joinSpace ws := by
    rw [List.filter_eq_self]
    intro c hc
    rcases mem_joinSpace hc with hc | ⟨u, hu, hcu⟩
    · subst hc
      decide
    · exact ((h u hu).2 c hcu).2
  rw [hfix, collapseWS_joinSpace ws hsp, pyStrip_joinSpace ws hsp]

/-- The brand dispatch of `postprocess_by_column` in closed form. -/
theorem brand_postprocess (col text : Text) (h : pyLower col ∈ brandCols) :
    postprocess_by_column col text = processBrand (cleanText text) := by
  simp only [brandCols, List.mem_cons, List.not_mem_nil, or_false] at h
  unfold postprocess_by_column
  by_cases ht : text = []
  · rw [if_pos ht, ht]
    rfl
  · rw [if_neg ht]
    have hnw : ¬ pyLower col ∈ weightCols := by
      rcases h with h | h <;> rw [h] <;> decide
    have hnc : ¬ pyLower col ∈ codeCols := by
      rcases h with h | h <;> rw [h] <;> decide
    have hb : pyLower col ∈ brandCols := by
      rcases h with h | h <;> rw [h] <;> decide
    rw [if_neg hnw, if_neg hnc, if_pos hb]

/-- C9: postprocessing is idempotent for the fixed-rule column types:
applying the code or brand cleanup twice equals applying it once, for
every input text. -/
theorem postprocess_idempotent (col text : Text)
    (h : pyLower col ∈ codeCols ∨ pyLower col ∈ brandCols) :
    postprocess_by_column col (postprocess_by_column col text) =
      postprocess_by_column col text := by
  rcases h with h | h
  · rw [code_postprocess_eq col text h, code_postprocess_eq col _ h]
    unfold pyUpper
    rw [List.filter_map,
      show (pyIsWordChar ∘ pyToUpperChar) = pyIsWordChar from
        funext fun c => pyIsWordChar_pyToUpperChar c]
    rw [List.filter_filter]
    rw [show (fun a => pyIsWordChar a && pyIsWordChar a) = pyIsWordChar from
      funext fun a => Bool.and_self _]
    rw [List.map_map]
    exact List.map_congr_left fun d _ => pyToUpperChar_idem d
  · rw [brand_postprocess col text h, brand_postprocess col _ h]
    have hwords := pySplit_words (cleanText text)
    have hgood : ∀ u ∈ (pySplit (cleanText text)).map pyCapitalize,
        u ≠ [] ∧ ∀ c ∈ u, pyIsSpace c = false ∧ cleanKeep c = true := by
      intro u hu
      rcases List.mem_map.mp hu with ⟨v, hv, hvu⟩
      obtain ⟨hvne, hvprop⟩ := hwords v hv
      subst hvu
      exact pyCapitalize_good v (fun c hc => (hvprop c hc).1)
        (fun c hc => cleanKeep_of_mem_cleanText (hvprop c hc).2) hvne
    show processBrand (cleanText (joinSpace _)) = _
    rw [cleanText_joinSpace _ hgood]
    unfold processBrand
    rw [pySplit_joinSpace _
      (fun u hu => ⟨(hgood u hu).1, fun c hc => ((hgood u hu).2 c hc).1⟩)]
    refine congrArg _ ?_
    rw [List.map_map]
    exact List.map_congr_left fun d _ => pyCapitalize_idem d

theorem postprocess_idempotent_witness :
    (pyLower (['M','a','r','c','a']) ∈ codeCols ∨ pyLower (['M','a','r','c','a']) ∈ brandCols) ∧
    postprocess_by_column (['M','a','r','c','a'])
        (postprocess_by_column (['M','a','r','c','a'])
          (['j','o','h','n',' ',' ','d','E','E','r','e'])) =
      postprocess_by_column (['M','a','r','c','a']) (['j','o','h','n',' ',' ','d','E','E','r','e']) :=
  ⟨Or.inr (by decide),
   postprocess_idempotent (['M','a','r','c','a']) (['j','o','h','n',' ',' ','d','E','E','r','e'])
     (Or.inr (by decide))⟩

theorem getLastD_of_ne_nil {l : List OcrWord} (h : l ≠ []) (d1 d2 : OcrWord) :
    l.getLastD d1 = l.getLastD d2 := by
  rw [List.getLastD_eq_getLast?, List.getLastD_eq_getLast?, List.getLast?_eq_getLast l h]
  rfl

theorem threshold_max_one (t : ℤ) : max 4 (Int.fdiv (max 1 t) 2) = max 4 (Int.fdiv t 2) := by
  rw [Int.fdiv_eq_ediv _ (by norm_num), Int.fdiv_eq_ediv _ (by norm_num)]
  omega

theorem chainInto_ne_nil (thr : ℤ) :
    ∀ (l cur : List OcrWord), cur ≠ [] → ∀ cl ∈ chainInto thr cur l, cl ≠ [] := by
  intro l
  induction l with
  | nil =>
    intro cur hcur cl hcl
    rw [show chainInto thr cur [] = [cur] from rfl] at hcl
    rcases List.mem_cons.mp hcl with h | h
    · exact h ▸ hcur
    · exact absurd h (List.not_mem_nil cl)
  | cons w ws ih =>
    intro cur hcur cl hcl
    rw [show chainInto thr cur (w :: ws) =
      if |w.y - (cur.getLastD w).y| ≤ thr then chainInto thr (cur ++ [w]) ws
      else cur :: chainInto thr [w] ws from rfl] at hcl
    by_cases hcond : |w.y - (cur.getLastD w).y| ≤ thr
    · rw [if_pos hcond] at hcl
      exact ih (cur ++ [w]) (by simp) cl hcl
    · rw [if_neg hcond] at hcl
      rcases List.mem_cons.mp hcl with h | h
      · exact h ▸ hcur
      · exact ih [w] (by simp) cl h

theorem sortX_ne_nil {l : List OcrWord} (h : l ≠ []) : sortX l ≠ [] := by
  intro hc
  apply h
  have := (List.perm_insertionSort (fun a b : OcrWord => a.x ≤ b.x) l).length_eq
  rw [show sortX l = l.insertionSort (fun a b => a.x ≤ b.x) from rfl] at hc
  rw [hc] at this
  exact List.length_eq_zero.mp this.symm

theorem truncCells_ne_nil (mc : Option ℤ) {cells : List Text} (h : cells ≠ []) :
    truncCells mc cells ≠ [] := by
  cases mc with
  | none => exact h
  | some m =>
    rw [show truncCells (some m) cells =
      if 0 < m ∧ m < (cells.length : ℤ) then
        cells.take (m - 1).toNat ++ [joinSpace (cells.drop (m - 1).toNat)]
      else cells from rfl]
    by_cases hc : 0 < m ∧ m < (cells.length : ℤ)
    · rw [if_pos hc]
      simp
    · rw [if_neg hc]
      exact h

theorem wtt_loop_eq (thr : ℤ) (dflt : OcrWord) :
    ∀ (rest : List OcrWord) (rows : List (List OcrWord)) (cur : List OcrWord), cur ≠ [] →
    (rest.foldl (fun st w =>
        if |w.y - (st.2.getLastD dflt).y| ≤ thr then (st.1, st.2 ++ [w])
        else (st.1 ++ [sortX st.2], [w])) (rows, cur)).1 ++
      [sortX (rest.foldl (fun st w =>
        if |w.y - (st.2.getLastD dflt).y| ≤ thr then (st.1, st.2 ++ [w])
        else (st.1 ++ [sortX st.2], [w])) (rows, cur)).2] =
    rows ++ (chainInto thr cur rest).map sortX := by
  intro rest
  induction rest with
  | nil =>
    intro rows cur hcur
    rfl
  | cons w ws ih =>
    intro rows cur hcur
    rw [List.foldl_cons]
    dsimp only
    rw [show chainInto thr cur (w :: ws) =
      if |w.y - (cur.getLastD w).y| ≤ thr then chainInto thr (cur ++ [w]) ws
      else cur :: chainInto thr [w] ws from rfl]
    rw [getLastD_of_ne_nil hcur dflt w]
    by_cases hcond : |w.y - (cur.getLastD w).y| ≤ thr
    · simp only [if_pos hcond]
      exact ih rows (cur ++ [w]) (by simp)
    · simp only [if_neg hcond]
      rw [ih (rows ++ [sortX cur]) [w] (by simp)]
      simp [List.append_assoc]

/-- C6: the embedded line-clustering fallback equals the claim-level
description: filter blank words, sort by y then x, cluster rows by
vertical proximity with threshold `max 4 (half of the truncated average
word height)`, sort each row by horizontal position, one cell per word,
and concatenate the overflow of an over-long row into its last kept
cell. -/
theorem words_to_table_line_clustering (words : List OcrWord) (mc : Option ℤ) :
    words_to_table words mc = claimLineClusteredTable words mc := by
  unfold words_to_table claimLineClusteredTable
  by_cases hi : (words.filter fun w => pyStrip w.text ≠ []).isEmpty
  · rw [if_pos hi, if_pos hi]
  · rw [if_neg hi, if_neg hi]
    have hne : sortYX (words.filter fun w => pyStrip w.text ≠ []) ≠ [] := by
      intro hc
      have hlen := (List.perm_insertionSort
        (fun a b : OcrWord => a.y < b.y ∨ (a.y = b.y ∧ a.x ≤ b.x))
        (words.filter fun w => pyStrip w.text ≠ [])).length_eq
      rw [show sortYX (words.filter fun w => pyStrip w.text ≠ []) =
        (words.filter fun w => pyStrip w.text ≠ []).insertionSort
          (fun a b => a.y < b.y ∨ (a.y = b.y ∧ a.x ≤ b.x)) from rfl] at hc
      rw [hc] at hlen
      rw [List.isEmpty_iff] at hi
      exact hi (List.length_eq_zero.mp hlen.symm)
    cases hs : sortYX (words.filter fun w => pyStrip w.text ≠ []) with
    | nil => exact absurd hs hne
    | cons first rest =>
      dsimp only
      rw [threshold_max_one]
      rw [wtt_loop_eq _ first rest [] [first] (by simp)]
      rw [List.nil_append,
        show chainClusters (max 4 (Int.fdiv (Int.tdiv ((List.map (fun x => x.h)
          (first :: rest)).sum) (first :: rest).length) 2)) (first :: rest) =
        chainInto (max 4 (Int.fdiv (Int.tdiv ((List.map (fun x => x.h)
          (first :: rest)).sum) (first :: rest).length) 2)) [first] rest from rfl]
      rw [List.map_map]
      refine congrArg Table.mk (List.map_congr_left ?_)
      intro cl hcl
      have hclne := chainInto_ne_nil _ rest [first] (by simp) cl hcl
      have hcells : truncCells mc ((sortX cl).map (·.text)) ≠ [] := by
        apply truncCells_ne_nil
        intro hmap
        exact sortX_ne_nil hclne (List.map_eq_nil_iff.mp hmap)
      show TableRow.mk (if truncCells mc ((sortX cl).map (·.text)) = [] then [[]]
        else truncCells mc ((sortX cl).map (·.text))) = _
      rw [if_neg hcells]

end Image2Excel
